import Mathlib

/-!
Verification of the compilation-pipeline driver (`CompilerStack`), the IR
generation context (`IRGenerationContext`) and the phaser fitness metric
(`RelativeProgramSize`) of the Solidity compiler sources.

The C++ sources are shallowly embedded: `std::map`s keyed by strings become
association lists iterated in key order (the map's iteration order), pointers
to AST nodes become the node values themselves (pointer identity coincides
with name identity because map keys are unique), thrown exceptions become
`Except` results, and machine integers become `Nat`.
-/

namespace Solidity

/-- A source position, as attached to an AST node by the parser:
the name of the source unit it lies in plus start/end offsets
(`SourceLocation` in the C++ sources). -/
structure SourceLocation where
  srcName : String
  startPos : Nat
  endPos : Nat
deriving DecidableEq

/-- The top-level AST node kinds that `CompilerStack.cpp` dispatches on via
`dynamic_cast`: import directives (carrying the imported identifier and the
directive's own source location) and contract definitions (carrying the
contract name and the "fully implemented" flag).  All other node kinds are
ignored by the driver and collapse to `otherNode`. -/
inductive ASTNode where
  | importDirective (identifier : String) (loc : SourceLocation)
  | contractDefinition (contractName : String) (fullyImplemented : Bool)
  | otherNode
deriving DecidableEq

/-- Embeds `CompilerStack::Source`: a named source unit with its raw text (held by
the scanner in C++), its library flag and its parsed AST (the list of
top-level nodes of the `SourceUnit`).  The map key (the source name) is kept
inside the record so that `m_sources` can be modelled as a list iterated in
key order. -/
structure Source where
  name : String
  content : String
  isLibrary : Bool
  ast : List ASTNode
deriving DecidableEq

/-- The exceptions thrown by the embedded code: `ParserError` (which carries
a source location via `errinfo_sourceLocation`), `CompilerError` and
`InternalCompilerError`, each with their `errinfo_comment` message. -/
inductive CompilerException where
  | parserError (msg : String) (loc : SourceLocation)
  | compilerError (msg : String)
  | internalCompilerError (msg : String)
deriving DecidableEq

/-- The import directives of a source: identifier and location of every
`ImportDirective` among its top-level AST nodes, in node order
(the `dynamic_cast<ImportDirective*>` filter in `resolveImports`). -/
def sourceImports (s : Source) : List (String × SourceLocation) :=
  s.ast.filterMap (fun n =>
    match n with
    | .importDirective id loc => some (id, loc)
    | _ => none)

/-- Lookup of a source by name (`m_sources.count(id)` / `m_sources[id]`). -/
def lookupSrc (m : List Source) (id : String) : Option Source :=
  m.find? (fun s => s.name == id)

/-- The names of a list of sources. -/
def namesOf (l : List Source) : List String := l.map Source.name

/-- The inner loop of `CompilerStack::resolveImports`'s `toposort` lambda:
walk the import directives of the current source in order; a missing import
target raises `ParserError` "Source not found." carrying the directive's
location; otherwise recurse (via `recur`, the depth-first visit) into the
target, threading the visited set and the order accumulator. -/
def importLoop (m : List Source)
    (recur : Source → List String → List Source →
      Except CompilerException (List String × List Source)) :
    List (String × SourceLocation) → List String → List Source →
      Except CompilerException (List String × List Source)
  | [], seen, order => .ok (seen, order)
  | (id, loc) :: rest, seen, order =>
    match lookupSrc m id with
    | none => .error (.parserError "Source not found." loc)
    | some t =>
      match recur t seen order with
      | .error e => .error e
      | .ok (seen1, order1) => importLoop m recur rest seen1 order1

/-- The `toposort` lambda of `CompilerStack::resolveImports`: depth-first
post-order visit with a visited set cutting cycles.  The C++ recursion is
bounded here by a fuel counter; `resolveImports` passes fuel
`m.length + 1`, which is proved sufficient (`toposort_no_internal`), so
the fuel-exhaustion branch is unreachable from `resolveImports`. -/
def toposort (m : List Source) :
    Nat → Source → List String → List Source →
      Except CompilerException (List String × List Source)
  | 0, _, _, _ => .error (.internalCompilerError "import recursion limit reached")
  | fuel+1, s, seen, order =>
    if s.name ∈ seen then .ok (seen, order)
    else
      match importLoop m (toposort m fuel) (sourceImports s) (s.name :: seen) order with
      | .error e => .error e
      | .ok (seen1, order1) => .ok (seen1, order1 ++ [s])

/-- The root loop of `CompilerStack::resolveImports`: visit every
non-library source, in map iteration (key) order. -/
def toposortRoots (m : List Source) (fuel : Nat) :
    List Source → List String → List Source →
      Except CompilerException (List String × List Source)
  | [], seen, order => .ok (seen, order)
  | r :: rest, seen, order =>
    if r.isLibrary then toposortRoots m fuel rest seen order
    else
      match toposort m fuel r seen order with
      | .error e => .error e
      | .ok (seen1, order1) => toposortRoots m fuel rest seen1 order1

/-- Embeds `CompilerStack::resolveImports`: topological sorting (depth-first
search) of the import graph, cutting potential cycles; the result is the
`m_sourceOrder` vector. -/
def resolveImports (m : List Source) : Except CompilerException (List Source) :=
  match toposortRoots m (m.length + 1) m [] [] with
  | .error e => .error e
  | .ok (_, order) => .ok order

/-- The import-graph edge relation: `a` has an import directive whose
identifier resolves (in map `m`) to `b`. -/
def edgeRel (m : List Source) (a b : Source) : Prop :=
  a ∈ m ∧ ∃ p ∈ sourceImports a, lookupSrc m p.1 = some b

/-- Reachability along import edges (reflexive-transitive closure). -/
def Reach (m : List Source) : Source → Source → Prop :=
  Relation.ReflTransGen (edgeRel m)

/-- Predicate: `t` lies on a cycle of the import graph. -/
def OnCycle (m : List Source) (t : Source) : Prop :=
  Relation.TransGen (edgeRel m) t t

/-- Predicate: `b` occurs strictly before `a` in the list `l`. -/
def Precedes (l : List Source) (b a : Source) : Prop :=
  ∃ i j : Fin l.length, (i : Nat) < (j : Nat) ∧ l.get i = b ∧ l.get j = a

instance (l : List Source) (b a : Source) : Decidable (Precedes l b a) := by
  unfold Precedes; infer_instance

/-- The ancestor chain of the depth-first visit: `chainTo m stack s` holds
when `stack` lists the ancestors of `s` innermost first, each linked to the
next by an import edge. -/
def chainTo (m : List Source) : List Source → Source → Prop
  | [], _ => True
  | p :: rest, s => edgeRel m p s ∧ chainTo m rest p

/-- The invariant of the depth-first traversal, relating the visited set
`seen`, the emitted post-order `order` and the (ghost) chain `stack` of
sources whose visits are still in progress. -/
structure DfsInv (m : List Source) (seen : List String) (order : List Source)
    (stack : List Source) : Prop where
  seenIff : ∀ n, n ∈ seen ↔ (n ∈ namesOf order ∨ n ∈ namesOf stack)
  orderNodup : (namesOf order).Nodup
  stackNodup : (namesOf stack).Nodup
  disj : ∀ n, n ∈ namesOf order → n ∉ namesOf stack
  orderMem : ∀ x ∈ order, x ∈ m
  stackMem : ∀ x ∈ stack, x ∈ m
  resolved : ∀ x ∈ order, ∀ p ∈ sourceImports x, (lookupSrc m p.1).isSome
  closure : ∀ x ∈ order, ∀ p ∈ sourceImports x, ∀ t, lookupSrc m p.1 = some t →
    t ∈ order ∨ t ∈ stack
  prec : ∀ x ∈ order, ∀ p ∈ sourceImports x, ∀ t, lookupSrc m p.1 = some t →
    Precedes order t x ∨ (t ∈ stack ∧ Reach m t x) ∨ OnCycle m t

/-- The number of map keys not yet visited; the decreasing measure showing
the fuel bound of `resolveImports` is never hit. -/
def unvisitedCount (m : List Source) (seen : List String) : Nat :=
  ((namesOf m).filter (fun n => !(seen.contains n))).length

/-! Concrete sources for the worked examples of the spec: the cyclic pair
`"A"` importing `"B"` and `"B"` importing `"A"`, a source whose import
target is missing, and an acyclic `"Lib"`/`"User"` pair. -/

/-- Source `"A"` with `import "B";`. -/
def srcA : Source :=
  ⟨"A", "import \"B\";", false, [.importDirective "B" ⟨"A", 0, 11⟩]⟩

/-- Source `"B"` with `import "A";`. -/
def srcB : Source :=
  ⟨"B", "import \"A\";", false, [.importDirective "A" ⟨"B", 0, 11⟩]⟩

/-- The cyclic source map of spec scenario 3. -/
def cyclicPair : List Source := [srcA, srcB]

/-- Source `"A"` with `import "Nope";` (spec scenario 4). -/
def srcMissing : Source :=
  ⟨"A", "import \"Nope\";", false, [.importDirective "Nope" ⟨"A", 0, 14⟩]⟩

/-- Source `"Lib"` defining a contract, importing nothing. -/
def srcLib : Source :=
  ⟨"Lib", "contract L \x7b\x7d", false, [.contractDefinition "L" true]⟩

/-- Source `"User"` with `import "Lib";`. -/
def srcUser : Source :=
  ⟨"User", "import \"Lib\";", false, [.importDirective "Lib" ⟨"User", 0, 13⟩]⟩

/-- The acyclic source map (spec scenario 2 shape). -/
def acyclicPair : List Source := [srcLib, srcUser]

/-! ## The driver state (`CompilerStack`) and its queries -/

/-- The fixed `StandardSources` bundle of `CompilerStack.cpp`, as `Source`
records in map-key order (C++ `std::string` comparison puts the capitalised
names first), flagged as libraries (`addSources(StandardSources, true)`),
not yet parsed.  Solidity braces inside the texts appear as their character
escapes. -/
def standardSources : List Source := [
  ⟨"Coin", "contract Coin\x7bfunction isApprovedFor(address _target,address _proxy)constant returns(bool _r)\x7b\x7dfunction isApproved(address _proxy)constant returns(bool _r)\x7b\x7dfunction sendCoinFrom(address _from,uint256 _val,address _to)\x7b\x7dfunction coinBalanceOf(address _a)constant returns(uint256 _r)\x7b\x7dfunction sendCoin(uint256 _val,address _to)\x7b\x7dfunction coinBalance()constant returns(uint256 _r)\x7b\x7dfunction approve(address _a)\x7b\x7d\x7d", true, []⟩,
  ⟨"CoinReg", "contract CoinReg\x7bfunction count()constant returns(uint256 r)\x7b\x7dfunction info(uint256 i)constant returns(address addr,bytes3 name,uint256 denom)\x7b\x7dfunction register(bytes3 name,uint256 denom)\x7b\x7dfunction unregister()\x7b\x7d\x7d", true, []⟩,
  ⟨"Config", "contract Config\x7bfunction lookup(uint256 service)constant returns(address a)\x7b\x7dfunction kill()\x7b\x7dfunction unregister(uint256 id)\x7b\x7dfunction register(uint256 id,address service)\x7b\x7d\x7d", true, []⟩,
  ⟨"NameReg", "contract NameReg\x7bfunction register(bytes32 name)\x7b\x7dfunction addressOf(bytes32 name)constant returns(address addr)\x7b\x7dfunction unregister()\x7b\x7dfunction nameOf(address addr)constant returns(bytes32 name)\x7b\x7d\x7d", true, []⟩,
  ⟨"coin", "import \"CoinReg\";import \"Config\";import \"configUser\";contract coin is configUser\x7bfunction coin(bytes3 name, uint denom) \x7bCoinReg(Config(configAddr()).lookup(3)).register(name, denom);\x7d\x7d", true, []⟩,
  ⟨"configUser", "contract configUser\x7bfunction configAddr()constant returns(address a)\x7b return 0xc6d9d2cd449a754c494264e1809c50e34d64562b;\x7d\x7d", true, []⟩,
  ⟨"mortal", "import \"owned\";contract mortal is owned \x7bfunction kill() \x7b if (msg.sender == owner) suicide(owner); \x7d\x7d", true, []⟩,
  ⟨"named", "import \"Config\";import \"NameReg\";import \"configUser\";contract named is configUser \x7bfunction named(bytes32 name) \x7bNameReg(Config(configAddr()).lookup(1)).register(name);\x7d\x7d", true, []⟩,
  ⟨"owned", "contract owned\x7bfunction owned()\x7bowner = msg.sender;\x7dmodifier onlyowner()\x7bif(msg.sender==owner)_\x7daddress owner;\x7d", true, []⟩,
  ⟨"service", "import \"Config\";import \"configUser\";contract service is configUser\x7bfunction service(uint _n)\x7bConfig(configAddr()).register(_n, this);\x7d\x7d", true, []⟩,
  ⟨"std", "import \"owned\";import \"mortal\";import \"Config\";import \"configUser\";import \"NameReg\";import \"named\";", true, []⟩]

/-- The keys of `StandardSources` (all that `CompilerStack::contract` uses
of the bundle: `StandardSources.count(it.first)`). -/
def standardSourceNames : List String := standardSources.map Source.name

/-- Embeds `eth::LinkerObject`: bytecode plus the list of unresolved link
references (offset and library name). -/
structure LinkerObject where
  bytecode : List Nat
  linkReferences : List (Nat × String)
deriving DecidableEq

/-- Embeds `DocumentationType`: the four documentation kinds of the driver. -/
inductive DocumentationType where
  | natspecUser
  | natspecDev
  | abiInterface
  | abiSolidityInterface
deriving DecidableEq

/-- Embeds `CompilerStack::Contract`: the per-contract record held in
`m_contracts`.  The AST pointer is modelled by the contract name it points
to, the three bytecode objects are stored directly, and the four
documentation strings stand for the `InterfaceHandler` output that the C++
computes lazily and caches. -/
structure ContractRecord where
  contractDef : String
  object : LinkerObject
  runtimeObject : LinkerObject
  cloneObject : LinkerObject
  userDoc : String
  devDoc : String
  interfaceDoc : String
  solidityInterfaceDoc : String
deriving DecidableEq

/-- The driver state retained across calls: the `m_parseSuccessful` flag,
the source map `m_sources` (iterated in key order) and the contract map
`m_contracts` (keyed by contract name). -/
structure CompilerState where
  parseSuccessful : Bool
  sources : List Source
  contracts : List (String × ContractRecord)
deriving DecidableEq

/-- The `CompilerError` thrown by queries that require a successful parse. -/
def parsingNotSuccessful : CompilerException :=
  .compilerError "Parsing was not successful."

/-- Embeds `CompilerStack::contractNames`: requires the parse-successful flag,
then lists the keys of `m_contracts`. -/
def contractNames (st : CompilerState) : Except CompilerException (List String) :=
  if st.parseSuccessful then .ok (st.contracts.map Prod.fst)
  else .error parsingNotSuccessful

/-- The contract names declared by the user-supplied (non-standard-library)
sources, in source (map key) order: the successive values taken by
`contractName` in the empty-name fallback loop of `CompilerStack::contract`. -/
def userContractNames (st : CompilerState) : List String :=
  (st.sources.filter (fun s => !standardSourceNames.contains s.name)).flatMap
    (fun s => s.ast.filterMap (fun n =>
      match n with
      | .contractDefinition cn _ => some cn
      | _ => none))

/-- Embeds `CompilerStack::contract`: fails if no compiled contracts exist; an
empty name falls back to the last value assigned by the loop over
user-supplied sources (or stays empty when that loop assigns nothing);
then looks the name up in `m_contracts`. -/
def contract (st : CompilerState) (nm : String) :
    Except CompilerException ContractRecord :=
  if st.contracts.isEmpty then
    .error (.compilerError "No compiled contracts found.")
  else
    let contractName := if nm = "" then (userContractNames st).getLast?.getD nm else nm
    match st.contracts.find? (fun p => p.1 == contractName) with
    | some p => .ok p.2
    | none => .error (.compilerError ("Contract " ++ nm ++ " not found."))

/-- Embeds `CompilerStack::object`: the deployment bytecode of a contract. -/
def object (st : CompilerState) (nm : String) :
    Except CompilerException LinkerObject :=
  (contract st nm).map ContractRecord.object

/-- Embeds `CompilerStack::runtimeObject`: the runtime bytecode of a contract. -/
def runtimeObject (st : CompilerState) (nm : String) :
    Except CompilerException LinkerObject :=
  (contract st nm).map ContractRecord.runtimeObject

/-- Embeds `CompilerStack::cloneObject`: the clone bytecode of a contract. -/
def cloneObject (st : CompilerState) (nm : String) :
    Except CompilerException LinkerObject :=
  (contract st nm).map ContractRecord.cloneObject

/-- Embeds `CompilerStack::contractDefinition`: the contract's AST
(`*contract(name).contract`, modelled by the stored reference). -/
def contractDefinition (st : CompilerState) (nm : String) :
    Except CompilerException String :=
  (contract st nm).map ContractRecord.contractDef

/-- Embeds `CompilerStack::metadata`: requires the parse-successful flag, resolves
the contract, then returns the documentation of the requested type (the
C++ computes it through the `InterfaceHandler` on first access and caches
it; the cached value is modelled by the stored string). -/
def metadata (st : CompilerState) (nm : String) (ty : DocumentationType) :
    Except CompilerException String :=
  if st.parseSuccessful then
    (contract st nm).map (fun c =>
      match ty with
      | .natspecUser => c.userDoc
      | .natspecDev => c.devDoc
      | .abiInterface => c.interfaceDoc
      | .abiSolidityInterface => c.solidityInterfaceDoc)
  else .error parsingNotSuccessful

/-- Embeds `CompilerStack::interface`: ABI interface metadata. -/
def interface (st : CompilerState) (nm : String) :
    Except CompilerException String :=
  metadata st nm .abiInterface

/-- Embeds `CompilerStack::solidityInterface`. -/
def solidityInterface (st : CompilerState) (nm : String) :
    Except CompilerException String :=
  metadata st nm .abiSolidityInterface

/-- Embeds `CompilerStack::contractCodeHash`, parametrised by the external 256-bit
content hash `dev::sha3` (an interface consumed by the driver; `dev::h256()`
— the zero hash — is modelled by `0`): the zero hash when the runtime
bytecode is empty or link references remain unresolved, the content hash of
the runtime bytecode otherwise. -/
def contractCodeHash (sha3 : List Nat → Nat) (st : CompilerState)
    (nm : String) : Except CompilerException Nat :=
  match runtimeObject st nm with
  | .error e => .error e
  | .ok obj =>
    if obj.bytecode.isEmpty || !obj.linkReferences.isEmpty then .ok 0
    else .ok (sha3 obj.bytecode)

/-- Embeds `Source::reset` as invoked by `CompilerStack::reset(true)`: the raw
text and the library flag survive, the derived state (the parsed AST) is
discarded. -/
def Source.resetDerived (s : Source) : Source := { s with ast := [] }

/-- Embeds `CompilerStack::reset(keepSources, addStandardSources)`: clears the
flag, the derived per-source state, the source order and the contract map;
when `keepSources` is false the source map itself is cleared and the
standard bundle optionally re-added. -/
def resetStack (st : CompilerState) (keepSources addStandardSources : Bool) :
    CompilerState :=
  if keepSources then
    { parseSuccessful := false
      sources := st.sources.map Source.resetDerived
      contracts := [] }
  else
    { parseSuccessful := false
      sources := if addStandardSources then standardSources else []
      contracts := [] }

/-- Insertion into the source map in key order: `m_sources[_name]`
default-constructs a fresh entry at its sorted position when the key is
new, otherwise the existing entry is reused; the subsequent assignments
replace its scanner (raw text) and library flag. -/
def mapInsert (l : List Source) (nm content : String) (isLib : Bool) :
    List Source :=
  match l with
  | [] => [⟨nm, content, isLib, []⟩]
  | x :: r =>
    if nm < x.name then ⟨nm, content, isLib, []⟩ :: x :: r
    else if nm = x.name then { x with content := content, isLibrary := isLib } :: r
    else x :: mapInsert r nm content isLib

/-- Embeds `CompilerStack::addSource`: records whether the name already existed,
soft-resets (keeping sources), then stores scanner and library flag under
the name; returns the `existed` flag alongside the new state. -/
def addSource (st : CompilerState) (nm content : String) (isLib : Bool) :
    Bool × CompilerState :=
  let existed := !((st.sources.find? (fun s => s.name == nm)).isNone)
  let st1 := resetStack st true true
  (existed, { st1 with sources := mapInsert st1.sources nm content isLib })

/-- The raw text stored for a source name (observation used to state the
`addSource` claims). -/
def contentOf (st : CompilerState) (nm : String) : Option String :=
  (st.sources.find? (fun s => s.name == nm)).map Source.content

/-! ## The IR generation context (`IRGenerationContext.h`) -/

/-- Embeds `FunctionDefinition` as far as the dispatch-set comparator observes it:
its stable globally-unique numeric ID (`_f->id()`). -/
structure FunctionDefinition where
  id : Nat
deriving DecidableEq

/-- Embeds `AscendingFunctionIDCompare` on possibly-null `FunctionDefinition`
pointers (`none` is `nullptr`): when both are non-null, compare the IDs;
otherwise the result is whether the first one is null. -/
def ascendingFunctionIDCompare
    (f1 f2 : Option FunctionDefinition) : Bool :=
  match f1, f2 with
  | some g1, some g2 => g1.id < g2.id
  | _, _ => f1.isNone

/-- A `VariableDeclaration` pointer, modelled by the declaration's identity. -/
abbrev VariableDeclaration : Type := Nat

/-- The slice of `IRGenerationContext` state driving the storage-layout
lookups: `m_stateVariables`, the map from state-variable declarations to
their `(u256 slot, unsigned byte-offset)` storage location. -/
structure IRGenerationContext where
  stateVariables : List (VariableDeclaration × (Nat × Nat))
deriving DecidableEq

/-- Embeds `IRGenerationContext::addStateVariable`: records the storage location
of a state variable (`m_stateVariables[&_varDecl] = ...`; a fresh key lands
at its place in the pointer-keyed map — position is irrelevant to lookups,
appending is used here). -/
def addStateVariable (ctx : IRGenerationContext) (decl : VariableDeclaration)
    (storageOffset byteOffset : Nat) : IRGenerationContext :=
  ⟨ctx.stateVariables.filter (fun p => !(p.1 == decl)) ++ [(decl, (storageOffset, byteOffset))]⟩

/-- Embeds `IRGenerationContext::isStateVariable`:
`m_stateVariables.count(&_varDecl)` as a boolean. -/
def isStateVariable (ctx : IRGenerationContext)
    (decl : VariableDeclaration) : Bool :=
  (ctx.stateVariables.find? (fun p => p.1 == decl)).isSome

/-- Embeds `IRGenerationContext::storageLocationOfStateVariable`:
`solAssert(isStateVariable(_varDecl), "")` — a failed assertion is the
fatal internal error — then `m_stateVariables.at(&_varDecl)` (whose own
missing-key failure is likewise an internal error, unreachable under the
assertion). -/
def storageLocationOfStateVariable (ctx : IRGenerationContext)
    (decl : VariableDeclaration) : Except CompilerException (Nat × Nat) :=
  if isStateVariable ctx decl then
    match ctx.stateVariables.find? (fun p => p.1 == decl) with
    | some p => .ok p.2
    | none => .error (.internalCompilerError "map::at: key not found")
  else .error (.internalCompilerError "Solidity assertion failed: isStateVariable")

/-! ## The phaser fitness metric (`FitnessMetrics.cpp`) -/

/-- Embeds `ProgramBasedMetric` over an abstract `Program` type `P` (the yul
program is an external collaborator; its `codeSize` observation and its
in-place `optimise(steps)` mutation are taken as parameters): the stored
program and the repetition count. -/
structure ProgramBasedMetric (P : Type) where
  codeSize : P → Nat
  optimise : P → List String → P
  program : P
  repetitionCount : Nat

/-- Embeds `ProgramBasedMetric::optimisedProgram`: copy the stored program and
run `optimise(_chromosome.optimisationSteps())` on the copy
`m_repetitionCount` times.  A `Chromosome` is observed only through its
optimisation-step sequence, so it is modelled by that list; `Chromosome("")`
is the empty list. -/
def optimisedProgram {P : Type} (m : ProgramBasedMetric P)
    (steps : List String) : Nat → P
  | 0 => m.program
  | n + 1 => m.optimise (optimisedProgram m steps n) steps

/-- Embeds `RelativeProgramSize`: a `ProgramBasedMetric` plus the fixed-point
precision. -/
structure RelativeProgramSize (P : Type) extends ProgramBasedMetric P where
  fixedPointPrecision : Nat

/-- C `round` on the nonnegative rationals: round half away from zero. -/
def roundHalfUp (q : ℚ) : Nat := (q + 1 / 2).floor.toNat

/-- Embeds `RelativeProgramSize::evaluate`: scaling factor `10^precision`; if the
code size of the program optimised with the empty chromosome is `0`, return
the scaling factor; otherwise return the rounded size ratio scaled by it
(the C++ `double` arithmetic is modelled by exact rational arithmetic). -/
def RelativeProgramSize.evaluate {P : Type} (m : RelativeProgramSize P)
    (chromosome : List String) : Nat :=
  let scalingFactor : Nat := 10 ^ m.fixedPointPrecision
  let unoptimisedSize :=
    m.codeSize (optimisedProgram m.toProgramBasedMetric [] m.repetitionCount)
  if unoptimisedSize = 0 then scalingFactor
  else
    let optimisedSize :=
      m.codeSize (optimisedProgram m.toProgramBasedMetric chromosome m.repetitionCount)
    roundHalfUp ((optimisedSize : ℚ) / (unoptimisedSize : ℚ) * (scalingFactor : ℚ))

/-! ## Claim-side definitions and concrete instances -/

/-- The ordering predicate that the specification ascribes to
`AscendingFunctionIDCompare`: true exactly when the first pointer is null
and the second is not, or both are non-null with strictly ascending IDs.
(This definition follows the spec's words, for comparison against
`ascendingFunctionIDCompare`, which follows the code.) -/
def claimedCompareSpec (f1 f2 : Option FunctionDefinition) : Prop :=
  (f1 = none ∧ f2 ≠ none) ∨
    (∃ g1 g2, f1 = some g1 ∧ f2 = some g2 ∧ g1.id < g2.id)

/-- A contract record used by the concrete driver states below. -/
def demoRecord : ContractRecord :=
  ⟨"A", ⟨[96, 96], []⟩, ⟨[96, 3], []⟩, ⟨[], []⟩, "u", "d", "i", "s"⟩

/-- A driver state whose parse-successful flag is false while `m_contracts`
still holds an entry (the state reached when an earlier pipeline phase
populated `m_contracts` and a later phase threw, or after interleaved use;
nothing clears `m_contracts` between the registration loop and the
type-checking loop of `parse()`). -/
def notParsedState : CompilerState :=
  ⟨false, [], [("A", demoRecord)]⟩

/-- A source defining contracts `A` and `B` (in that node order). -/
def srcTwoContracts : Source :=
  ⟨"two", "contract A \x7b\x7d contract B \x7b\x7d", false,
    [.contractDefinition "A" true, .contractDefinition "B" true]⟩

/-- A parsed driver state with one user source defining `A` then `B`,
and records for both. -/
def parsedState : CompilerState :=
  ⟨true, [srcTwoContracts],
    [("A", demoRecord), ("B", { demoRecord with contractDef := "B" })]⟩

/-- A state-variable map holding declaration `0` at slot `3`, byte
offset `8`. -/
def demoContext : IRGenerationContext := ⟨[(0, (3, 8))]⟩

/-- A concrete `RelativeProgramSize` metric over the trivial program type:
every program has code size `0`. -/
def zeroSizeMetric : RelativeProgramSize Unit :=
  { codeSize := fun _ => 0
    optimise := fun p _ => p
    program := ()
    repetitionCount := 1
    fixedPointPrecision := 2 }

/-- A concrete `RelativeProgramSize` metric over `Nat` programs: the
program is its own code size and each optimisation pass halves it. -/
def halvingMetric : RelativeProgramSize Nat :=
  { codeSize := fun p => p
    optimise := fun p _ => p / 2
    program := 12
    repetitionCount := 1
    fixedPointPrecision := 2 }

/-- An empty driver state (no standard sources). -/
def freshState : CompilerState := ⟨false, [], []⟩

/-! ## Theorems -/

/-- C4 counterexample: the comparator applied to two null pointers returns
`true` (the `else` branch returns `_f1 == nullptr`), while the claimed
characterisation — null strictly before non-null, or both non-null with
ascending IDs — is false at that input. -/
theorem compare_counterexample :
    ascendingFunctionIDCompare none none = true ∧
      ¬ claimedCompareSpec none none := by
  refine ⟨rfl, ?_⟩
  rintro (⟨_, h2⟩ | ⟨g1, g2, h1, _, _⟩)
  · exact h2 rfl
  · exact Option.noConfusion h1

/-- C4 (amended): `AscendingFunctionIDCompare` returns `true` exactly when
the first pointer is null (regardless of the second), or both are non-null
and the first ID is strictly smaller. -/
theorem compare_amended :
    ∀ f1 f2 : Option FunctionDefinition,
      ascendingFunctionIDCompare f1 f2 = true ↔
        (f1 = none ∨ ∃ g1 g2, f1 = some g1 ∧ f2 = some g2 ∧ g1.id < g2.id) := by
  rintro (_ | g1) (_ | g2) <;>
    simp [ascendingFunctionIDCompare, Option.isNone]

/-- C9: when `isStateVariable` holds, `storageLocationOfStateVariable`
returns the recorded `(slot, byte-offset)` pair; when it does not hold, the
call is a failed assertion, i.e. a fatal `InternalCompilerError`, and no
value is returned. -/
theorem storageLocation_spec :
    ∀ (ctx : IRGenerationContext) (decl : VariableDeclaration),
      (isStateVariable ctx decl = true →
        ∃ slot off, (decl, (slot, off)) ∈ ctx.stateVariables ∧
          storageLocationOfStateVariable ctx decl = .ok (slot, off)) ∧
      (isStateVariable ctx decl = false →
        ∃ msg, storageLocationOfStateVariable ctx decl =
          .error (.internalCompilerError msg)) := by
  intro ctx decl
  constructor
  · intro h
    unfold isStateVariable at h
    rw [Option.isSome_iff_exists] at h
    obtain ⟨p, hp⟩ := h
    refine ⟨p.2.1, p.2.2, ?_, ?_⟩
    · have hmem := List.mem_of_find?_eq_some hp
      have hname := List.find?_some hp
      have : p.1 = decl := by simpa using hname
      simpa [← this] using hmem
    · unfold storageLocationOfStateVariable isStateVariable
      rw [hp]
      simp
  · intro h
    unfold isStateVariable at h
    refine ⟨"Solidity assertion failed: isStateVariable", ?_⟩
    unfold storageLocationOfStateVariable isStateVariable
    simp [h]

/-- C9 witness: in the concrete context holding declaration `0` at slot 3,
offset 8, the lookup for `0` succeeds with the recorded pair and the lookup
for `1` is the fatal assertion failure. -/
theorem storageLocation_spec_witness :
    (isStateVariable demoContext 0 = true ∧
      ∃ slot off, (0, (slot, off)) ∈ demoContext.stateVariables ∧
        storageLocationOfStateVariable demoContext 0 = .ok (slot, off)) ∧
    (isStateVariable demoContext 1 = false ∧
      ∃ msg, storageLocationOfStateVariable demoContext 1 =
        .error (.internalCompilerError msg)) :=
  ⟨⟨rfl, (storageLocation_spec demoContext 0).1 rfl⟩,
    ⟨rfl, (storageLocation_spec demoContext 1).2 rfl⟩⟩

/-- C10: `RelativeProgramSize::evaluate` never divides by zero — when the
code size of the program optimised with the empty chromosome is `0` it
returns the scaling factor `10 ^ fixedPointPrecision`, for every chromosome
alike (the chromosome's own size ratio plays no part); otherwise it returns
the rounded scaled size ratio (C `double` arithmetic modelled exactly over
`ℚ`). -/
theorem relativeProgramSize_spec :
    ∀ (P : Type) (m : RelativeProgramSize P) (chromosome : List String),
      (m.codeSize (optimisedProgram m.toProgramBasedMetric [] m.repetitionCount) = 0 →
        RelativeProgramSize.evaluate m chromosome = 10 ^ m.fixedPointPrecision) ∧
      (m.codeSize (optimisedProgram m.toProgramBasedMetric [] m.repetitionCount) ≠ 0 →
        RelativeProgramSize.evaluate m chromosome =
          roundHalfUp
            ((m.codeSize (optimisedProgram m.toProgramBasedMetric chromosome
                m.repetitionCount) : ℚ) /
              (m.codeSize (optimisedProgram m.toProgramBasedMetric [] m.repetitionCount) : ℚ) *
              ((10 ^ m.fixedPointPrecision : Nat) : ℚ))) := by
  intro P m chromosome
  constructor
  · intro h
    simp [RelativeProgramSize.evaluate, h]
  · intro h
    simp [RelativeProgramSize.evaluate, h]

/-- C10 witness: with the all-zero-size metric the guard fires and the
scaling factor `10 ^ 2 = 100` is returned for an arbitrary chromosome;
with the halving metric the unoptimised size is `6 ≠ 0` and the rounded
scaled ratio is returned. -/
theorem relativeProgramSize_spec_witness :
    (zeroSizeMetric.codeSize
        (optimisedProgram zeroSizeMetric.toProgramBasedMetric []
          zeroSizeMetric.repetitionCount) = 0 ∧
      RelativeProgramSize.evaluate zeroSizeMetric ["fullInliner"] =
        10 ^ zeroSizeMetric.fixedPointPrecision) ∧
    (halvingMetric.codeSize
        (optimisedProgram halvingMetric.toProgramBasedMetric []
          halvingMetric.repetitionCount) ≠ 0 ∧
      RelativeProgramSize.evaluate halvingMetric ["fullInliner"] =
        roundHalfUp
          ((halvingMetric.codeSize
              (optimisedProgram halvingMetric.toProgramBasedMetric ["fullInliner"]
                halvingMetric.repetitionCount) : ℚ) /
            (halvingMetric.codeSize
              (optimisedProgram halvingMetric.toProgramBasedMetric []
                halvingMetric.repetitionCount) : ℚ) *
            ((10 ^ halvingMetric.fixedPointPrecision : Nat) : ℚ))) :=
  ⟨⟨rfl, (relativeProgramSize_spec Unit zeroSizeMetric ["fullInliner"]).1 rfl⟩,
    ⟨by decide,
      (relativeProgramSize_spec Nat halvingMetric ["fullInliner"]).2 (by decide)⟩⟩

/-- Helper: a successful `find?` forces the list to be non-empty. -/
theorem find?_some_ne_nil {α : Type} {l : List α} {p : α → Bool} {x : α}
    (h : l.find? p = some x) : l ≠ [] := by
  intro hnil
  subst hnil
  exact Option.noConfusion h

/-- C2 counterexample: on a state whose parse-successful flag is false but
whose contract map is populated, `object` returns the stored bytecode
object rather than failing with the "parsing not successful"
`CompilerError` — `CompilerStack::object` reaches the record through
`contract`, which never consults `m_parseSuccessful`. -/
theorem parseFlag_counterexample :
    notParsedState.parseSuccessful = false ∧
      object notParsedState "A" = .ok ⟨[96, 96], []⟩ :=
  ⟨rfl, rfl⟩

/-- C2 (amended): with the parse-successful flag false, `contractNames`,
`metadata`, `interface` and `solidityInterface` fail with the
"Parsing was not successful." `CompilerError`; but `object`,
`runtimeObject`, `cloneObject` and `contractDefinition` do not consult the
flag: for any non-empty contract name present in the contract map they
still return the stored record's fields. -/
theorem parseFlagQueries_amended :
    ∀ (st : CompilerState) (nm : String) (ty : DocumentationType),
      st.parseSuccessful = false →
      contractNames st = .error parsingNotSuccessful ∧
      metadata st nm ty = .error parsingNotSuccessful ∧
      interface st nm = .error parsingNotSuccessful ∧
      solidityInterface st nm = .error parsingNotSuccessful ∧
      (∀ nm2 c, nm2 ≠ "" →
        st.contracts.find? (fun p => p.1 == nm2) = some (nm2, c) →
        object st nm2 = .ok c.object ∧
        runtimeObject st nm2 = .ok c.runtimeObject ∧
        cloneObject st nm2 = .ok c.cloneObject ∧
        contractDefinition st nm2 = .ok c.contractDef) := by
  intro st nm ty h
  refine ⟨by simp [contractNames, h], by simp [metadata, h],
    by simp [interface, metadata, h], by simp [solidityInterface, metadata, h], ?_⟩
  intro nm2 c hne hfind
  have hnonempty : st.contracts ≠ [] := find?_some_ne_nil hfind
  have hc : contract st nm2 = .ok c := by
    unfold contract
    rw [if_neg (by simpa [List.isEmpty_iff] using hnonempty)]
    simp only [if_neg hne, hfind]
  exact ⟨by simp [object, hc, Except.map], by simp [runtimeObject, hc, Except.map],
    by simp [cloneObject, hc, Except.map], by simp [contractDefinition, hc, Except.map]⟩

/-- C2 witness: the amended statement instantiated on the concrete
unparsed state with contract `"A"` stored. -/
theorem parseFlagQueries_amended_witness :
    notParsedState.parseSuccessful = false ∧
      contractNames notParsedState = .error parsingNotSuccessful ∧
      object notParsedState "A" = .ok demoRecord.object := by
  have h := parseFlagQueries_amended notParsedState "A" .natspecUser rfl
  exact ⟨rfl, h.1, ((h.2.2.2.2 "A" demoRecord (by decide) rfl).1)⟩

/-- C3: for a contract whose record exists, `contractCodeHash` is the zero
hash exactly when the runtime bytecode is empty or link references remain,
and is the content hash of the runtime bytecode otherwise (under the
premise that the external 256-bit content hash of that bytecode is not the
zero value). -/
theorem contractCodeHash_spec :
    ∀ (sha3 : List Nat → Nat) (st : CompilerState) (nm : String)
      (c : ContractRecord),
      contract st nm = .ok c →
      sha3 c.runtimeObject.bytecode ≠ 0 →
      ((contractCodeHash sha3 st nm = .ok 0 ↔
          (c.runtimeObject.bytecode = [] ∨ c.runtimeObject.linkReferences ≠ [])) ∧
        (c.runtimeObject.bytecode ≠ [] → c.runtimeObject.linkReferences = [] →
          contractCodeHash sha3 st nm = .ok (sha3 c.runtimeObject.bytecode))) := by
  intro sha3 st nm c hc hsha
  have hobj : runtimeObject st nm = .ok c.runtimeObject := by
    simp [runtimeObject, hc, Except.map]
  unfold contractCodeHash
  rw [hobj]
  by_cases hemp : c.runtimeObject.bytecode = []
  · simp [hemp]
  · by_cases hlink : c.runtimeObject.linkReferences = []
    · simp [hemp, hlink, hsha]
    · simp [hemp, hlink]

/-- C3 witness: on the concrete parsed state, contract `"A"` has runtime
bytecode `[96, 3]` with no link references, and its code hash under the
length hash is `.ok 2`; the iff places it in the non-zero branch. -/
theorem contractCodeHash_spec_witness :
    contract parsedState "A" = .ok demoRecord ∧
      (fun l : List Nat => l.length) demoRecord.runtimeObject.bytecode ≠ 0 ∧
      contractCodeHash (fun l => l.length) parsedState "A" = .ok 2 := by
  refine ⟨rfl, by decide, ?_⟩
  have h := contractCodeHash_spec (fun l => l.length) parsedState "A" demoRecord
    rfl (by decide)
  exact h.2 (by decide) rfl

/-- C7: `contract("")` with a non-empty contract map falls back to the last
contract name declared by the user-supplied (non-standard-library) sources
in source order, and returns that contract's record. -/
theorem contract_empty_name_fallback :
    ∀ (st : CompilerState) (nm : String) (c : ContractRecord),
      st.contracts ≠ [] →
      (userContractNames st).getLast? = some nm →
      st.contracts.find? (fun p => p.1 == nm) = some (nm, c) →
      contract st "" = .ok c := by
  intro st nm c hne hlast hfind
  unfold contract
  rw [if_neg (by simpa [List.isEmpty_iff] using hne)]
  simp [hlast, hfind]

/-- C7 witness: on the concrete parsed state whose single user source
declares `A` then `B`, the empty-name lookup returns `B`'s record. -/
theorem contract_empty_name_fallback_witness :
    parsedState.contracts ≠ [] ∧
      (userContractNames parsedState).getLast? = some "B" ∧
      contract parsedState "" = .ok { demoRecord with contractDef := "B" } := by
  refine ⟨by decide, rfl, ?_⟩
  exact contract_empty_name_fallback parsedState "B"
    { demoRecord with contractDef := "B" } (by decide) rfl rfl

/-- Helper: after `mapInsert`, the entry under the inserted name carries
the new raw text. -/
theorem mapInsert_find_self (l : List Source) (nm c : String) (isLib : Bool) :
    ((mapInsert l nm c isLib).find? (fun s => s.name == nm)).map Source.content
      = some c := by
  induction l with
  | nil => simp [mapInsert]
  | cons x r ih =>
    by_cases hlt : nm < x.name
    · simp [mapInsert, hlt]
    · by_cases heq : nm = x.name
      · simp [mapInsert, hlt, heq, List.find?]
      · have hne : (x.name == nm) = false := by
          simp [Ne.symm heq]
        simp only [mapInsert, if_neg hlt, if_neg heq]
        rw [List.find?_cons_of_neg _ (by simp [hne])]
        exact ih

/-- Helper: `mapInsert` leaves every other name's entry untouched. -/
theorem mapInsert_find_other (l : List Source) (nm c : String) (isLib : Bool)
    (nm2 : String) (h : nm2 ≠ nm) :
    (mapInsert l nm c isLib).find? (fun s => s.name == nm2)
      = l.find? (fun s => s.name == nm2) := by
  induction l with
  | nil => simp [mapInsert, Ne.symm h]
  | cons x r ih =>
    by_cases hlt : nm < x.name
    · have e1 : mapInsert (x :: r) nm c isLib = ⟨nm, c, isLib, []⟩ :: x :: r := by
        simp [mapInsert, hlt]
      rw [e1]
      exact List.find?_cons_of_neg _ (by simp [Ne.symm h])
    · by_cases heq : nm = x.name
      · subst heq
        have e1 : mapInsert (x :: r) x.name c isLib
            = { x with content := c, isLibrary := isLib } :: r := by
          simp [mapInsert, hlt]
        rw [e1, List.find?_cons_of_neg _ (by simp [Ne.symm h]),
          List.find?_cons_of_neg _ (by simp [Ne.symm h])]
      · have e1 : mapInsert (x :: r) nm c isLib = x :: mapInsert r nm c isLib := by
          simp [mapInsert, hlt, heq]
        rw [e1]
        cases hx : (x.name == nm2) with
        | true =>
          rw [@List.find?_cons_of_pos _ (fun s => s.name == nm2) x
              (mapInsert r nm c isLib) hx,
            @List.find?_cons_of_pos _ (fun s => s.name == nm2) x r hx]
        | false =>
          have hx2 : ¬((fun s : Source => s.name == nm2) x = true) := by simp [hx]
          rw [@List.find?_cons_of_neg _ (fun s => s.name == nm2) x
              (mapInsert r nm c isLib) hx2,
            @List.find?_cons_of_neg _ (fun s => s.name == nm2) x r hx2]
          exact ih

/-- Helper: the per-source soft reset keeps names and raw texts, so text
lookups are unchanged by it. -/
theorem find?_resetDerived_content (l : List Source) (nm : String) :
    ((l.map Source.resetDerived).find? (fun s => s.name == nm)).map Source.content
      = (l.find? (fun s => s.name == nm)).map Source.content := by
  rw [List.find?_map, Option.map_map]
  rfl

/-- C8: `addSource(name, content, isLibrary)` returns `true` exactly when a
source with that name already existed in the source map, stores the new
content under the name, and preserves the text of every other source. -/
theorem addSource_spec :
    ∀ (st : CompilerState) (nm c : String) (isLib : Bool),
      ((addSource st nm c isLib).1 = true ↔ ∃ s ∈ st.sources, s.name = nm) ∧
      contentOf (addSource st nm c isLib).2 nm = some c ∧
      (∀ nm2, nm2 ≠ nm →
        contentOf (addSource st nm c isLib).2 nm2 = contentOf st nm2) := by
  intro st nm c isLib
  have hs2 : (addSource st nm c isLib).2.sources
      = mapInsert (st.sources.map Source.resetDerived) nm c isLib := rfl
  refine ⟨?_, ?_, ?_⟩
  · have heq : (addSource st nm c isLib).1
        = (st.sources.find? (fun s => s.name == nm)).isSome := by
      cases hf : st.sources.find? (fun s => s.name == nm) <;> simp [addSource, hf]
    rw [heq, List.find?_isSome]
    simp
  · simp only [contentOf]
    rw [hs2]
    exact mapInsert_find_self (st.sources.map Source.resetDerived) nm c isLib
  · intro nm2 h
    simp only [contentOf]
    rw [hs2, mapInsert_find_other _ _ _ _ _ h, find?_resetDerived_content]

/-- C8 witness: adding `"n"` to the empty state returns `false`, adding it
again returns `true` and replaces the text, while a different name's
(absent) text is untouched. -/
theorem addSource_spec_witness :
    (addSource freshState "n" "c1" false).1 = false ∧
    (addSource (addSource freshState "n" "c1" false).2 "n" "c2" false).1 = true ∧
    contentOf (addSource (addSource freshState "n" "c1" false).2 "n" "c2" false).2 "n"
      = some "c2" ∧
    ("m" ≠ "n" ∧
      contentOf (addSource (addSource freshState "n" "c1" false).2 "n" "c2" false).2 "m"
        = contentOf (addSource freshState "n" "c1" false).2 "m") := by
  refine ⟨rfl, ?_, (addSource_spec _ "n" "c2" false).2.1,
    by decide, (addSource_spec _ "n" "c2" false).2.2 "m" (by decide)⟩
  exact (addSource_spec (addSource freshState "n" "c1" false).2 "n" "c2" false).1.mpr
    ⟨⟨"n", "c1", false, []⟩, by decide, rfl⟩

/-! ### Depth-first-search invariants for `resolveImports` -/

/-- Helper: position witnesses survive appending on the right. -/
theorem precedes_append {l d : List Source} {b a : Source}
    (h : Precedes l b a) : Precedes (l ++ d) b a := by
  obtain ⟨i, j, hij, hi, hj⟩ := h
  have hi2 : (i : Nat) < (l ++ d).length := by
    simp only [List.length_append]
    omega
  have hj2 : (j : Nat) < (l ++ d).length := by
    simp only [List.length_append]
    omega
  refine ⟨⟨i, hi2⟩, ⟨j, hj2⟩, hij, ?_, ?_⟩
  · rw [List.get_eq_getElem]
    have h3 := @List.getElem_append_left _ (i : Nat) l d i.isLt hi2
    rw [h3]
    rw [List.get_eq_getElem] at hi
    exact hi
  · rw [List.get_eq_getElem]
    have h3 := @List.getElem_append_left _ (j : Nat) l d j.isLt hj2
    rw [h3]
    rw [List.get_eq_getElem] at hj
    exact hj

/-- Helper: every element of `l` precedes the element appended behind it. -/
theorem precedes_append_last {l : List Source} {t s : Source}
    (h : t ∈ l) : Precedes (l ++ [s]) t s := by
  obtain ⟨n, hn⟩ := List.mem_iff_get.mp h
  have hn2 : (n : Nat) < (l ++ [s]).length := by
    simp only [List.length_append, List.length_singleton]
    omega
  have hl : l.length < (l ++ [s]).length := by
    simp
  refine ⟨⟨n, hn2⟩, ⟨l.length, hl⟩, n.isLt, ?_, ?_⟩
  · rw [List.get_eq_getElem]
    have h3 := @List.getElem_append_left _ (n : Nat) l [s] n.isLt hn2
    rw [h3]
    rw [List.get_eq_getElem] at hn
    exact hn
  · rw [List.get_eq_getElem]
    exact List.getElem_concat_length l s l.length rfl hl

/-- Helper: every source on the ancestor chain reaches the current source
along import edges. -/
theorem chainTo_reach {m : List Source} :
    ∀ {stack : List Source} {s : Source}, chainTo m stack s →
      ∀ t ∈ stack, Relation.TransGen (edgeRel m) t s := by
  intro stack
  induction stack with
  | nil => intro s _ t ht; exact absurd ht (List.not_mem_nil t)
  | cons p rest ih =>
    intro s hchain t ht
    obtain ⟨hedge, hrest⟩ := hchain
    rcases List.mem_cons.mp ht with rfl | ht2
    · exact Relation.TransGen.single hedge
    · exact (ih hrest t ht2).tail hedge

/-- Helper: with unique map keys, a name occurrence among sources of the
map pins down the source itself. -/
theorem mem_of_name_mem {m L : List Source} {t : Source}
    (hm : (namesOf m).Nodup) (ht : t ∈ m) (hL : ∀ x ∈ L, x ∈ m)
    (h : t.name ∈ namesOf L) : t ∈ L := by
  obtain ⟨x, hx, hxname⟩ := List.mem_map.mp h
  have : x = t := List.inj_on_of_nodup_map hm (hL x hx) ht hxname
  exact this ▸ hx

/-- Helper: a successful source lookup returns an element of the map. -/
theorem lookupSrc_mem {m : List Source} {id : String} {t : Source}
    (h : lookupSrc m id = some t) : t ∈ m :=
  List.mem_of_find?_eq_some h

/-- Helper: a successful source lookup returns a source with the looked-up
name. -/
theorem lookupSrc_name {m : List Source} {id : String} {t : Source}
    (h : lookupSrc m id = some t) : t.name = id := by
  have := List.find?_some h
  simpa using this

/-- Helper: the visited set only grows across the import loop (generic in
the recursive visit). -/
theorem importLoop_mono {m : List Source}
    {recur : Source → List String → List Source →
      Except CompilerException (List String × List Source)}
    (hrec : ∀ s seen order r, recur s seen order = .ok r → ∀ n ∈ seen, n ∈ r.1) :
    ∀ (imps : List (String × SourceLocation)) seen order r,
      importLoop m recur imps seen order = .ok r → ∀ n ∈ seen, n ∈ r.1 := by
  intro imps
  induction imps with
  | nil =>
    intro seen order r h n hn
    simp only [importLoop] at h
    cases h
    exact hn
  | cons p rest ih =>
    intro seen order r h n hn
    obtain ⟨id, loc⟩ := p
    cases hl : lookupSrc m id with
    | none => simp [importLoop, hl] at h
    | some t =>
      cases hr : recur t seen order with
      | error e => simp [importLoop, hl, hr] at h
      | ok r1 =>
        obtain ⟨seen1, order1⟩ := r1
        simp only [importLoop, hl, hr] at h
        exact ih seen1 order1 r h n (hrec t seen order (seen1, order1) hr n hn)

/-- Helper: the visited set only grows across the depth-first visit. -/
theorem toposort_mono {m : List Source} :
    ∀ (fuel : Nat) s seen order r,
      toposort m fuel s seen order = .ok r → ∀ n ∈ seen, n ∈ r.1 := by
  intro fuel
  induction fuel with
  | zero => intro s seen order r h; simp [toposort] at h
  | succ fuel ih =>
    intro s seen order r h n hn
    by_cases hs : s.name ∈ seen
    · simp only [toposort, if_pos hs] at h
      cases h
      exact hn
    · cases hloop : importLoop m (toposort m fuel) (sourceImports s) (s.name :: seen) order with
      | error e => simp [toposort, if_neg hs, hloop] at h
      | ok r1 =>
        obtain ⟨seen1, order1⟩ := r1
        simp only [toposort, if_neg hs, hloop] at h
        cases h
        exact importLoop_mono ih (sourceImports s) (s.name :: seen) order
          (seen1, order1) hloop n (List.mem_cons_of_mem _ hn)

/-- Helper: growing the visited set can only shrink the unvisited count. -/
theorem unvisited_le {m : List Source} {seen seen2 : List String}
    (h : ∀ n ∈ seen, n ∈ seen2) :
    unvisitedCount m seen2 ≤ unvisitedCount m seen := by
  apply List.Sublist.length_le
  apply List.monotone_filter_right
  intro a ha
  simp at ha ⊢
  exact fun hmem => ha (h a hmem)

/-- Helper: visiting a fresh source of the map strictly shrinks the
unvisited count. -/
theorem unvisited_lt {m : List Source} {seen : List String} {s : Source}
    (hs : s ∈ m) (hns : s.name ∉ seen) :
    unvisitedCount m (s.name :: seen) < unvisitedCount m seen := by
  have hsub : ((namesOf m).filter (fun n => !((s.name :: seen).contains n))).Sublist
      ((namesOf m).filter (fun n => !(seen.contains n))) := by
    apply List.monotone_filter_right
    intro a ha
    simp at ha ⊢
    exact ha.2
  refine Nat.lt_of_le_of_ne (List.Sublist.length_le hsub) (fun heq => ?_)
  have hlists := hsub.eq_of_length heq
  have hmem : s.name ∈ (namesOf m).filter (fun n => !(seen.contains n)) := by
    rw [List.mem_filter]
    refine ⟨List.mem_map_of_mem Source.name hs, ?_⟩
    simpa using hns
  rw [← hlists, List.mem_filter] at hmem
  simp at hmem

/-- Helper: the import loop never produces the fuel-exhaustion error if the
recursive visit cannot (generic; `Good` is the fuel-adequacy property of
the visited set, preserved by growth). -/
theorem importLoop_no_internal {m : List Source}
    {recur : Source → List String → List Source →
      Except CompilerException (List String × List Source)}
    (Good : List String → Prop)
    (hGood : ∀ seen seen2, Good seen → (∀ n ∈ seen, n ∈ seen2) → Good seen2)
    (hmono : ∀ s seen order r, recur s seen order = .ok r → ∀ n ∈ seen, n ∈ r.1)
    (hni : ∀ s seen order msg, s ∈ m → Good seen →
      recur s seen order ≠ .error (.internalCompilerError msg)) :
    ∀ (imps : List (String × SourceLocation)) seen order msg, Good seen →
      importLoop m recur imps seen order ≠ .error (.internalCompilerError msg) := by
  intro imps
  induction imps with
  | nil => intro seen order msg _ h; simp [importLoop] at h
  | cons p rest ih =>
    intro seen order msg hg h
    obtain ⟨id, loc⟩ := p
    cases hl : lookupSrc m id with
    | none => simp [importLoop, hl] at h
    | some t =>
      cases hr : recur t seen order with
      | error e =>
        simp only [importLoop, hl, hr] at h
        injection h with h2
        rw [h2] at hr
        exact hni t seen order msg (lookupSrc_mem hl) hg hr
      | ok r1 =>
        obtain ⟨seen1, order1⟩ := r1
        simp only [importLoop, hl, hr] at h
        exact ih seen1 order1 msg
          (hGood seen seen1 hg (hmono t seen order (seen1, order1) hr)) h

/-- Helper: with more fuel than unvisited map keys, the depth-first visit
never hits the fuel bound. -/
theorem toposort_no_internal {m : List Source} :
    ∀ (fuel : Nat) s seen order msg, s ∈ m → unvisitedCount m seen < fuel →
      toposort m fuel s seen order ≠ .error (.internalCompilerError msg) := by
  intro fuel
  induction fuel with
  | zero => intro s seen order msg _ hlt; exact absurd hlt (Nat.not_lt_zero _)
  | succ fuel ih =>
    intro s seen order msg hs hlt h
    by_cases hseen : s.name ∈ seen
    · simp [toposort, if_pos hseen] at h
    · cases hloop : importLoop m (toposort m fuel) (sourceImports s)
          (s.name :: seen) order with
      | error e =>
        simp only [toposort, if_neg hseen, hloop] at h
        injection h with h2
        rw [h2] at hloop
        have hgood : unvisitedCount m (s.name :: seen) < fuel :=
          Nat.lt_of_lt_of_le (unvisited_lt hs hseen) (Nat.lt_succ_iff.mp hlt)
        exact importLoop_no_internal (fun sn => unvisitedCount m sn < fuel)
          (fun sn sn2 hg hsub => Nat.lt_of_le_of_lt (unvisited_le hsub) hg)
          (fun s2 seen2 order2 r2 hr2 => toposort_mono fuel s2 seen2 order2 r2 hr2)
          (fun s2 seen2 order2 msg2 hs2 hg2 => ih s2 seen2 order2 msg2 hs2 hg2)
          (sourceImports s) (s.name :: seen) order msg hgood hloop
      | ok r1 =>
        obtain ⟨seen1, order1⟩ := r1
        simp [toposort, if_neg hseen, hloop] at h

/-- Helper: the root loop never produces the fuel-exhaustion error when the
fuel exceeds the unvisited count. -/
theorem toposortRoots_no_internal {m : List Source} (fuel : Nat) :
    ∀ (roots : List Source) seen order msg, (∀ x ∈ roots, x ∈ m) →
      unvisitedCount m seen < fuel →
      toposortRoots m fuel roots seen order ≠ .error (.internalCompilerError msg) := by
  intro roots
  induction roots with
  | nil => intro seen order msg _ _ h; simp [toposortRoots] at h
  | cons r0 rest ih =>
    intro seen order msg hroots hlt h
    by_cases hlib : r0.isLibrary
    · simp only [toposortRoots, if_pos hlib] at h
      exact ih seen order msg (fun x hx => hroots x (List.mem_cons_of_mem _ hx)) hlt h
    · cases htp : toposort m fuel r0 seen order with
      | error e =>
        simp only [toposortRoots, if_neg hlib, htp] at h
        injection h with h2
        rw [h2] at htp
        exact toposort_no_internal fuel r0 seen order msg
          (hroots r0 (List.mem_cons_self r0 rest)) hlt htp
      | ok r1 =>
        obtain ⟨seen1, order1⟩ := r1
        simp only [toposortRoots, if_neg hlib, htp] at h
        exact ih seen1 order1 msg
          (fun x hx => hroots x (List.mem_cons_of_mem _ hx))
          (Nat.lt_of_le_of_lt
            (unvisited_le (toposort_mono fuel r0 seen order (seen1, order1) htp)) hlt) h

/-- Helper: the shape of every error escaping the import loop — either an
inner fuel error, or the "Source not found." parser error carrying the
location of a genuinely unresolvable import directive of a source of the
map (generic in the recursive visit). -/
theorem importLoop_error_spec {m : List Source}
    {recur : Source → List String → List Source →
      Except CompilerException (List String × List Source)}
    (herr : ∀ s seen order e, s ∈ m → recur s seen order = .error e →
      (∃ msg, e = .internalCompilerError msg) ∨
      ∃ x ∈ m, ∃ p ∈ sourceImports x, lookupSrc m p.1 = none ∧
        e = .parserError "Source not found." p.2) :
    ∀ (imps : List (String × SourceLocation)) (s : Source) seen order e,
      s ∈ m → (∀ p ∈ imps, p ∈ sourceImports s) →
      importLoop m recur imps seen order = .error e →
      (∃ msg, e = .internalCompilerError msg) ∨
      ∃ x ∈ m, ∃ p ∈ sourceImports x, lookupSrc m p.1 = none ∧
        e = .parserError "Source not found." p.2 := by
  intro imps
  induction imps with
  | nil => intro s seen order e _ _ h; simp [importLoop] at h
  | cons p rest ih =>
    intro s seen order e hs himps h
    obtain ⟨id, loc⟩ := p
    cases hl : lookupSrc m id with
    | none =>
      simp only [importLoop, hl] at h
      injection h with h2
      exact Or.inr ⟨s, hs, (id, loc), himps (id, loc) (List.mem_cons_self _ _),
        hl, h2.symm⟩
    | some t =>
      cases hr : recur t seen order with
      | error e1 =>
        simp only [importLoop, hl, hr] at h
        injection h with h2
        rw [h2] at hr
        exact herr t seen order e (lookupSrc_mem hl) hr
      | ok r1 =>
        obtain ⟨seen1, order1⟩ := r1
        simp only [importLoop, hl, hr] at h
        exact ih s seen1 order1 e hs
          (fun q hq => himps q (List.mem_cons_of_mem _ hq)) h

/-- Helper: the shape of every error escaping the depth-first visit. -/
theorem toposort_error_spec {m : List Source} :
    ∀ (fuel : Nat) s seen order e, s ∈ m →
      toposort m fuel s seen order = .error e →
      (∃ msg, e = .internalCompilerError msg) ∨
      ∃ x ∈ m, ∃ p ∈ sourceImports x, lookupSrc m p.1 = none ∧
        e = .parserError "Source not found." p.2 := by
  intro fuel
  induction fuel with
  | zero =>
    intro s seen order e _ h
    simp only [toposort] at h
    injection h with h2
    exact Or.inl ⟨"import recursion limit reached", h2.symm⟩
  | succ fuel ih =>
    intro s seen order e hs h
    by_cases hseen : s.name ∈ seen
    · simp [toposort, if_pos hseen] at h
    · cases hloop : importLoop m (toposort m fuel) (sourceImports s)
          (s.name :: seen) order with
      | error e1 =>
        simp only [toposort, if_neg hseen, hloop] at h
        injection h with h2
        rw [h2] at hloop
        exact importLoop_error_spec
          (fun s2 seen2 order2 e2 hs2 hr2 => ih s2 seen2 order2 e2 hs2 hr2)
          (sourceImports s) s (s.name :: seen) order e hs (fun q hq => hq) hloop
      | ok r1 =>
        obtain ⟨seen1, order1⟩ := r1
        simp [toposort, if_neg hseen, hloop] at h

/-- Helper: the shape of every error escaping the root loop. -/
theorem toposortRoots_error_spec {m : List Source} (fuel : Nat) :
    ∀ (roots : List Source) seen order e, (∀ x ∈ roots, x ∈ m) →
      toposortRoots m fuel roots seen order = .error e →
      (∃ msg, e = .internalCompilerError msg) ∨
      ∃ x ∈ m, ∃ p ∈ sourceImports x, lookupSrc m p.1 = none ∧
        e = .parserError "Source not found." p.2 := by
  intro roots
  induction roots with
  | nil => intro seen order e _ h; simp [toposortRoots] at h
  | cons r0 rest ih =>
    intro seen order e hroots h
    by_cases hlib : r0.isLibrary
    · simp only [toposortRoots, if_pos hlib] at h
      exact ih seen order e (fun x hx => hroots x (List.mem_cons_of_mem _ hx)) h
    · cases htp : toposort m fuel r0 seen order with
      | error e1 =>
        simp only [toposortRoots, if_neg hlib, htp] at h
        injection h with h2
        rw [h2] at htp
        exact toposort_error_spec fuel r0 seen order e
          (hroots r0 (List.mem_cons_self r0 rest)) htp
      | ok r1 =>
        obtain ⟨seen1, order1⟩ := r1
        simp only [toposortRoots, if_neg hlib, htp] at h
        exact ih seen1 order1 e (fun x hx => hroots x (List.mem_cons_of_mem _ hx)) h

/-- Helper: the unvisited count is bounded by the map size, so the fuel
passed by `resolveImports` is always sufficient. -/
theorem unvisited_lt_fuel (m : List Source) (seen : List String) :
    unvisitedCount m seen < m.length + 1 := by
  have h1 : unvisitedCount m seen ≤ (namesOf m).length :=
    List.length_filter_le _ _
  have h2 : (namesOf m).length = m.length := List.length_map _ _
  omega

/-- Helper: every error escaping `resolveImports` is the "Source not
found." parser error, carrying the location of an import directive (of a
source of the map) whose identifier is absent from the map. -/
theorem resolveImports_error_spec {m : List Source} {e : CompilerException}
    (h : resolveImports m = .error e) :
    ∃ x ∈ m, ∃ p ∈ sourceImports x, lookupSrc m p.1 = none ∧
      e = .parserError "Source not found." p.2 := by
  have hni := @toposortRoots_no_internal m (m.length + 1) m ([] : List String) []
  cases hroots : toposortRoots m (m.length + 1) m [] [] with
  | error e1 =>
    simp only [resolveImports, hroots] at h
    injection h with h2
    rw [h2] at hroots
    rcases toposortRoots_error_spec (m.length + 1) m [] [] e
        (fun x hx => hx) hroots with ⟨msg, rfl⟩ | hgood
    · exact absurd hroots (hni msg (fun x hx => hx) (unvisited_lt_fuel m []))
    · exact hgood
  | ok r1 =>
    obtain ⟨seen1, order1⟩ := r1
    simp [resolveImports, hroots] at h

/-- Helper: `namesOf` distributes over cons. -/
theorem namesOf_cons (x : Source) (l : List Source) :
    namesOf (x :: l) = x.name :: namesOf l := rfl

/-- Helper: `namesOf` distributes over append. -/
theorem namesOf_append (l1 l2 : List Source) :
    namesOf (l1 ++ l2) = namesOf l1 ++ namesOf l2 := List.map_append _ _ _

/-- Helper: pushing a fresh source onto the visit: it enters the visited
set and the ancestor chain, and the invariant survives. -/
theorem dfsInv_push {m : List Source} {seen : List String}
    {order stack : List Source} {s : Source} (hinv : DfsInv m seen order stack)
    (hs : s ∈ m) (hseen : s.name ∉ seen) :
    DfsInv m (s.name :: seen) order (s :: stack) := by
  have hsnotstack : s.name ∉ namesOf stack :=
    fun hin => hseen ((hinv.seenIff s.name).mpr (Or.inr hin))
  have hsnotorder : s.name ∉ namesOf order :=
    fun hin => hseen ((hinv.seenIff s.name).mpr (Or.inl hin))
  refine ⟨?_, hinv.orderNodup, ?_, ?_, hinv.orderMem, ?_, hinv.resolved, ?_, ?_⟩
  · intro n
    rw [namesOf_cons]
    simp only [List.mem_cons, hinv.seenIff n]
    tauto
  · rw [namesOf_cons, List.nodup_cons]
    exact ⟨hsnotstack, hinv.stackNodup⟩
  · intro n hn hcon
    rw [namesOf_cons] at hcon
    rcases List.mem_cons.mp hcon with rfl | h2
    · exact hsnotorder hn
    · exact hinv.disj n hn h2
  · intro x hx
    rcases List.mem_cons.mp hx with rfl | h2
    · exact hs
    · exact hinv.stackMem x h2
  · intro x hx p hp t hl
    rcases hinv.closure x hx p hp t hl with h1 | h1
    · exact Or.inl h1
    · exact Or.inr (List.mem_cons_of_mem _ h1)
  · intro x hx p hp t hl
    rcases hinv.prec x hx p hp t hl with h1 | ⟨h1, h2⟩ | h1
    · exact Or.inl h1
    · exact Or.inr (Or.inl ⟨List.mem_cons_of_mem _ h1, h2⟩)
    · exact Or.inr (Or.inr h1)

/-- Helper: popping the current source off the visit and emitting it at
the end of the order: the invariant survives.  A target still on the
chain is either the source itself — then its import edge closes a cycle —
or a proper ancestor, which reaches the source along the chain. -/
theorem dfsInv_pop {m : List Source} {seen1 : List String}
    {order1 stack : List Source} {s : Source}
    (hs : s ∈ m) (hchain : chainTo m stack s)
    (hinv1 : DfsInv m seen1 order1 (s :: stack))
    (htgts : ∀ p ∈ sourceImports s, ∀ t, lookupSrc m p.1 = some t →
      t ∈ order1 ∨ t ∈ s :: stack)
    (hsome : ∀ p ∈ sourceImports s, (lookupSrc m p.1).isSome) :
    DfsInv m seen1 (order1 ++ [s]) stack := by
  have hstacknodup : (s.name :: namesOf stack).Nodup := by
    have := hinv1.stackNodup
    rwa [namesOf_cons] at this
  have hsnotstack : s.name ∉ namesOf stack := (List.nodup_cons.mp hstacknodup).1
  have hsnot1 : s.name ∉ namesOf order1 := fun hin =>
    hinv1.disj s.name hin (by rw [namesOf_cons]; exact List.mem_cons_self _ _)
  refine ⟨?_, ?_, (List.nodup_cons.mp hstacknodup).2, ?_, ?_, ?_, ?_, ?_, ?_⟩
  · intro n
    rw [hinv1.seenIff n, namesOf_append, namesOf_cons, namesOf_cons]
    simp only [namesOf, List.map_nil, List.mem_append, List.mem_cons,
      List.mem_singleton, List.not_mem_nil, or_false]
    tauto
  · rw [namesOf_append, namesOf_cons]
    simp only [namesOf, List.map_nil]
    rw [List.nodup_append]
    refine ⟨hinv1.orderNodup, List.nodup_singleton _, ?_⟩
    intro a ha hb
    rcases List.mem_cons.mp hb with rfl | hb2
    · exact hsnot1 ha
    · exact absurd hb2 (List.not_mem_nil a)
  · intro n hn hcon
    rw [namesOf_append, namesOf_cons] at hn
    rcases List.mem_append.mp hn with h1 | h1
    · exact hinv1.disj n h1 (by rw [namesOf_cons]; exact List.mem_cons_of_mem _ hcon)
    · rcases List.mem_cons.mp h1 with rfl | h2
      · exact hsnotstack hcon
      · exact absurd h2 (List.not_mem_nil n)
  · intro x hx
    rcases List.mem_append.mp hx with h1 | h1
    · exact hinv1.orderMem x h1
    · rcases List.mem_cons.mp h1 with rfl | h2
      · exact hs
      · exact absurd h2 (List.not_mem_nil x)
  · intro x hx
    exact hinv1.stackMem x (List.mem_cons_of_mem _ hx)
  · intro x hx p hp
    rcases List.mem_append.mp hx with h1 | h1
    · exact hinv1.resolved x h1 p hp
    · rcases List.mem_cons.mp h1 with rfl | h2
      · exact hsome p hp
      · exact absurd h2 (List.not_mem_nil x)
  · intro x hx p hp t hl
    have hsplit : t ∈ order1 ∨ t ∈ s :: stack → t ∈ order1 ++ [s] ∨ t ∈ stack := by
      rintro (h1 | h1)
      · exact Or.inl (List.mem_append_left _ h1)
      · rcases List.mem_cons.mp h1 with rfl | h2
        · exact Or.inl (List.mem_append_right _ (List.mem_singleton.mpr rfl))
        · exact Or.inr h2
    rcases List.mem_append.mp hx with h1 | h1
    · exact hsplit (hinv1.closure x h1 p hp t hl)
    · rcases List.mem_cons.mp h1 with rfl | h2
      · exact hsplit (htgts p hp t hl)
      · exact absurd h2 (List.not_mem_nil x)
  · intro x hx p hp t hl
    rcases List.mem_append.mp hx with h1 | h1
    · rcases hinv1.prec x h1 p hp t hl with h2 | ⟨h2, h3⟩ | h2
      · exact Or.inl (precedes_append h2)
      · rcases List.mem_cons.mp h2 with rfl | h4
        · refine Or.inr (Or.inr ?_)
          exact Relation.TransGen.tail' h3 ⟨hinv1.orderMem x h1, p, hp, hl⟩
        · exact Or.inr (Or.inl ⟨h4, h3⟩)
      · exact Or.inr (Or.inr h2)
    · rcases List.mem_cons.mp h1 with rfl | h2
      · rcases htgts p hp t hl with h2 | h2
        · exact Or.inl (precedes_append_last h2)
        · rcases List.mem_cons.mp h2 with rfl | h3
          · exact Or.inr (Or.inr (Relation.TransGen.single ⟨hs, p, hp, hl⟩))
          · exact Or.inr (Or.inl ⟨h3,
              Relation.TransGen.to_reflTransGen (chainTo_reach hchain t h3)⟩)
      · exact absurd h2 (List.not_mem_nil x)

/-- Helper: the invariant carried through the import loop of one source
(generic in the depth-first visit at the next fuel level, supplied as the
induction hypothesis `IH`). -/
theorem importLoop_inv {m : List Source} (hm : (namesOf m).Nodup) (fuel : Nat)
    (IH : ∀ (s : Source) seen order (stack : List Source) r,
      s ∈ m → DfsInv m seen order stack → chainTo m stack s →
      toposort m fuel s seen order = .ok r →
      (∀ n ∈ seen, n ∈ r.1) ∧ (∃ d, r.2 = order ++ d) ∧
        DfsInv m r.1 r.2 stack ∧ s.name ∈ r.1) :
    ∀ (imps : List (String × SourceLocation)) (s : Source) (stack : List Source)
      seen order r,
      s ∈ m → (∀ p ∈ imps, p ∈ sourceImports s) →
      DfsInv m seen order (s :: stack) → chainTo m stack s →
      importLoop m (toposort m fuel) imps seen order = .ok r →
      (∀ n ∈ seen, n ∈ r.1) ∧ (∃ d, r.2 = order ++ d) ∧
        DfsInv m r.1 r.2 (s :: stack) ∧
        (∀ p ∈ imps, ∀ t, lookupSrc m p.1 = some t → t ∈ r.2 ∨ t ∈ s :: stack) ∧
        (∀ p ∈ imps, (lookupSrc m p.1).isSome) := by
  intro imps
  induction imps with
  | nil =>
    intro s stack seen order r _ _ hinv _ h
    simp only [importLoop, Except.ok.injEq] at h
    subst h
    exact ⟨fun n hn => hn, ⟨[], by simp⟩, hinv,
      fun p hp => absurd hp (List.not_mem_nil p),
      fun p hp => absurd hp (List.not_mem_nil p)⟩
  | cons q rest ih =>
    intro s stack seen order r hs himps hinv hchain h
    obtain ⟨id, loc⟩ := q
    cases hl : lookupSrc m id with
    | none => simp [importLoop, hl] at h
    | some t =>
      cases hr : toposort m fuel t seen order with
      | error e => simp [importLoop, hl, hr] at h
      | ok r1 =>
        obtain ⟨seen1, order1⟩ := r1
        simp only [importLoop, hl, hr] at h
        have hedge : edgeRel m s t :=
          ⟨hs, (id, loc), himps (id, loc) (List.mem_cons_self _ _), hl⟩
        obtain ⟨hmono1, ⟨d1, hord1⟩, hinv1, htname⟩ :=
          IH t seen order (s :: stack) (seen1, order1) (lookupSrc_mem hl)
            hinv ⟨hedge, hchain⟩ hr
        obtain ⟨hmono2, ⟨d2, hord2⟩, hinv2, htgt2, hsome2⟩ :=
          ih s stack seen1 order1 r hs
            (fun q hq => himps q (List.mem_cons_of_mem _ hq)) hinv1 hchain h
        refine ⟨fun n hn => hmono2 n (hmono1 n hn),
          ⟨d1 ++ d2, by
            rw [hord2, show order1 = order ++ d1 from hord1, List.append_assoc]⟩,
          hinv2, ?_, ?_⟩
        · intro q hq t2 hl2
          rcases List.mem_cons.mp hq with rfl | hq2
          · have ht2 : t2 = t := by
              rw [hl] at hl2
              exact (Option.some.injEq _ _ ▸ hl2).symm ▸ rfl
            subst ht2
            have hname : t2.name ∈ r.1 := hmono2 t2.name htname
            rcases (hinv2.seenIff t2.name).mp hname with h1 | h1
            · exact Or.inl (mem_of_name_mem hm (lookupSrc_mem hl) hinv2.orderMem h1)
            · exact Or.inr (mem_of_name_mem hm (lookupSrc_mem hl) hinv2.stackMem h1)
          · exact htgt2 q hq2 t2 hl2
        · intro q hq
          rcases List.mem_cons.mp hq with rfl | hq2
          · rw [hl]; rfl
          · exact hsome2 q hq2

/-- Helper: the full invariant of one depth-first visit: the visited set
grows, the order grows by appended elements, the invariant is maintained
with the same ancestor chain, and the visited source ends up in the
visited set. -/
theorem toposort_inv {m : List Source} (hm : (namesOf m).Nodup) :
    ∀ (fuel : Nat) (s : Source) seen order (stack : List Source) r,
      s ∈ m → DfsInv m seen order stack → chainTo m stack s →
      toposort m fuel s seen order = .ok r →
      (∀ n ∈ seen, n ∈ r.1) ∧ (∃ d, r.2 = order ++ d) ∧
        DfsInv m r.1 r.2 stack ∧ s.name ∈ r.1 := by
  intro fuel
  induction fuel with
  | zero => intro s seen order stack r _ _ _ h; simp [toposort] at h
  | succ fuel ih =>
    intro s seen order stack r hs hinv hchain h
    by_cases hseen : s.name ∈ seen
    · simp only [toposort, if_pos hseen, Except.ok.injEq] at h
      subst h
      exact ⟨fun n hn => hn, ⟨[], by simp⟩, hinv, hseen⟩
    · cases hloop : importLoop m (toposort m fuel) (sourceImports s)
          (s.name :: seen) order with
      | error e => simp [toposort, if_neg hseen, hloop] at h
      | ok r1 =>
        obtain ⟨seen1, order1⟩ := r1
        simp only [toposort, if_neg hseen, hloop, Except.ok.injEq] at h
        subst h
        have hinv0 : DfsInv m (s.name :: seen) order (s :: stack) :=
          dfsInv_push hinv hs hseen
        obtain ⟨hmono1, ⟨d1, hord1⟩, hinv1, htgts, hsome⟩ :=
          importLoop_inv hm fuel
            (fun s2 seen2 order2 stack2 r2 hs2 hinv2 hchain2 h2 =>
              ih s2 seen2 order2 stack2 r2 hs2 hinv2 hchain2 h2)
            (sourceImports s) s stack (s.name :: seen) order (seen1, order1)
            hs (fun q hq => hq) hinv0 hchain hloop
        refine ⟨fun n hn => hmono1 n (List.mem_cons_of_mem _ hn),
          ⟨d1 ++ [s], by
            rw [show order1 = order ++ d1 from hord1, List.append_assoc]⟩, ?_,
          hmono1 s.name (List.mem_cons_self _ _)⟩
        exact dfsInv_pop hs hchain hinv1 htgts hsome

/-- Helper: the invariant carried through the root loop. -/
theorem toposortRoots_inv {m : List Source} (hm : (namesOf m).Nodup)
    (fuel : Nat) :
    ∀ (roots : List Source) seen order r,
      (∀ x ∈ roots, x ∈ m) → DfsInv m seen order [] →
      toposortRoots m fuel roots seen order = .ok r →
      (∀ n ∈ seen, n ∈ r.1) ∧ DfsInv m r.1 r.2 [] ∧
        (∀ x ∈ roots, x.isLibrary = false → x.name ∈ r.1) := by
  intro roots
  induction roots with
  | nil =>
    intro seen order r _ hinv h
    simp only [toposortRoots, Except.ok.injEq] at h
    subst h
    exact ⟨fun n hn => hn, hinv, fun x hx => absurd hx (List.not_mem_nil x)⟩
  | cons r0 rest ih =>
    intro seen order r hroots hinv h
    by_cases hlib : r0.isLibrary
    · simp only [toposortRoots, if_pos hlib] at h
      obtain ⟨hmono, hinv2, hcover⟩ :=
        ih seen order r (fun x hx => hroots x (List.mem_cons_of_mem _ hx)) hinv h
      refine ⟨hmono, hinv2, ?_⟩
      intro x hx hxlib
      rcases List.mem_cons.mp hx with rfl | hx2
      · rw [hlib] at hxlib; cases hxlib
      · exact hcover x hx2 hxlib
    · cases htp : toposort m fuel r0 seen order with
      | error e => simp [toposortRoots, if_neg hlib, htp] at h
      | ok r1 =>
        obtain ⟨seen1, order1⟩ := r1
        simp only [toposortRoots, if_neg hlib, htp] at h
        obtain ⟨hmono1, _, hinv1, hname1⟩ :=
          toposort_inv hm fuel r0 seen order [] (seen1, order1)
            (hroots r0 (List.mem_cons_self _ _)) hinv trivial htp
        obtain ⟨hmono2, hinv2, hcover2⟩ :=
          ih seen1 order1 r (fun x hx => hroots x (List.mem_cons_of_mem _ hx))
            hinv1 h
        refine ⟨fun n hn => hmono2 n (hmono1 n hn), hinv2, ?_⟩
        intro x hx hxlib
        rcases List.mem_cons.mp hx with rfl | hx2
        · exact hmono2 x.name hname1
        · exact hcover2 x hx2 hxlib

/-- Helper: everything `resolveImports` guarantees on success: unique
names, membership in the map, all imports of emitted sources resolve and
their targets are emitted, every target precedes its importer unless it
lies on an import cycle, and every non-library source is emitted. -/
theorem resolveImports_inv {m : List Source} {order : List Source}
    (hm : (namesOf m).Nodup) (h : resolveImports m = .ok order) :
    (namesOf order).Nodup ∧ (∀ x ∈ order, x ∈ m) ∧
    (∀ x ∈ order, ∀ p ∈ sourceImports x, (lookupSrc m p.1).isSome) ∧
    (∀ x ∈ order, ∀ p ∈ sourceImports x, ∀ t, lookupSrc m p.1 = some t →
      t ∈ order) ∧
    (∀ x ∈ order, ∀ p ∈ sourceImports x, ∀ t, lookupSrc m p.1 = some t →
      Precedes order t x ∨ OnCycle m t) ∧
    (∀ x ∈ m, x.isLibrary = false → x ∈ order) := by
  have hinv0 : DfsInv m [] [] [] := by
    refine ⟨?_, ?_, ?_, ?_, ?_, ?_, ?_, ?_, ?_⟩ <;>
      simp [namesOf]
  cases hroots : toposortRoots m (m.length + 1) m [] [] with
  | error e => simp [resolveImports, hroots] at h
  | ok r1 =>
    obtain ⟨seen1, order1⟩ := r1
    simp only [resolveImports, hroots, Except.ok.injEq] at h
    rw [h] at hroots
    obtain ⟨_, hinv, hcover⟩ :=
      toposortRoots_inv hm (m.length + 1) m [] [] (seen1, order)
        (fun x hx => hx) hinv0 hroots
    have hmem : ∀ x ∈ order, x ∈ m := hinv.orderMem
    refine ⟨hinv.orderNodup, hmem, hinv.resolved, ?_, ?_, ?_⟩
    · intro x hx p hp t hl
      rcases hinv.closure x hx p hp t hl with h1 | h1
      · exact h1
      · exact absurd h1 (List.not_mem_nil t)
    · intro x hx p hp t hl
      rcases hinv.prec x hx p hp t hl with h1 | ⟨h1, _⟩ | h1
      · exact Or.inl h1
      · exact absurd h1 (List.not_mem_nil t)
      · exact Or.inr h1
    · intro x hx hxlib
      have hname : x.name ∈ seen1 := hcover x hx hxlib
      rcases (hinv.seenIff x.name).mp hname with h1 | h1
      · exact mem_of_name_mem hm hx hmem h1
      · simp [namesOf] at h1

/-- C1 counterexample: on the cyclic source map (`"A"` importing `"B"`,
`"B"` importing `"A"`) `resolveImports` succeeds with the order
`[B, A]`, yet the import edge from `B` to `A` has its target `A` *after*
`B` — the claimed ordering guarantee fails on maps whose import graph
contains a cycle. -/
theorem importOrder_counterexample :
    resolveImports cyclicPair = .ok [srcB, srcA] ∧
      edgeRel cyclicPair srcB srcA ∧
      ¬ Precedes [srcB, srcA] srcA srcB := by
  refine ⟨rfl, ⟨by decide, ("A", ⟨"B", 0, 11⟩), by decide, rfl⟩, by decide⟩

/-- C1 (amended): for every import edge `a → b` of an emitted source `a`
whose target `b` does not lie on a cycle of the import graph, `b` precedes
`a` in the topological order produced by `resolveImports`. -/
theorem importOrder_amended :
    ∀ (m order : List Source), (namesOf m).Nodup →
      resolveImports m = .ok order →
      ∀ a ∈ order, ∀ p ∈ sourceImports a, ∀ b, lookupSrc m p.1 = some b →
        ¬ OnCycle m b → Precedes order b a := by
  intro m order hm h a ha p hp b hb hnc
  rcases (resolveImports_inv hm h).2.2.2.2.1 a ha p hp b hb with h1 | h1
  · exact h1
  · exact absurd h1 hnc

/-- C1 witness: on the acyclic `"Lib"`/`"User"` map the amended statement
places `Lib` before its importer `User`. -/
theorem importOrder_amended_witness :
    ((namesOf acyclicPair).Nodup ∧
      resolveImports acyclicPair = .ok [srcLib, srcUser] ∧
      srcUser ∈ [srcLib, srcUser] ∧
      ("Lib", (⟨"User", 0, 13⟩ : SourceLocation)) ∈ sourceImports srcUser ∧
      lookupSrc acyclicPair "Lib" = some srcLib ∧
      ¬ OnCycle acyclicPair srcLib) ∧
    Precedes [srcLib, srcUser] srcLib srcUser := by
  have hnc : ¬ OnCycle acyclicPair srcLib := by
    intro hcyc
    have hempty : sourceImports srcLib = [] := rfl
    obtain ⟨c, h1, _⟩ := Relation.TransGen.head'_iff.mp hcyc
    obtain ⟨_, p, hp, _⟩ := h1
    rw [hempty] at hp
    exact absurd hp (List.not_mem_nil p)
  refine ⟨⟨by decide, rfl, by decide, by decide, rfl, hnc⟩, ?_⟩
  exact importOrder_amended acyclicPair [srcLib, srcUser] (by decide) rfl srcUser
    (by decide) ("Lib", ⟨"User", 0, 13⟩) (by decide) srcLib rfl hnc

/-- C5: on any source map whose imports all resolve — cyclic import graphs
included — `resolveImports` succeeds (so `parse()` is not aborted by the
import-resolution step) and every source reachable from a non-library root
appears exactly once in the resulting topological order. -/
theorem cycleTolerance_spec :
    ∀ m : List Source, (namesOf m).Nodup →
      (∀ s ∈ m, ∀ p ∈ sourceImports s, (lookupSrc m p.1).isSome) →
      ∃ order, resolveImports m = .ok order ∧
        ∀ r ∈ m, r.isLibrary = false → ∀ x, Reach m r x →
          order.count x = 1 := by
  intro m hm hres
  cases h : resolveImports m with
  | error e =>
    obtain ⟨x, hx, p, hp, hnone, _⟩ := resolveImports_error_spec h
    have hsome := hres x hx p hp
    rw [hnone] at hsome
    simp at hsome
  | ok order =>
    obtain ⟨hnodup, hmem, _, hclosure, _, hroots⟩ := resolveImports_inv hm h
    refine ⟨order, rfl, ?_⟩
    intro r hr hrlib x hreach
    have hreach2 : Relation.ReflTransGen (edgeRel m) r x := hreach
    clear hreach
    have hxorder : x ∈ order := by
      induction hreach2 with
      | refl => exact hroots r hr hrlib
      | tail h1 h2 ih =>
        obtain ⟨_, p, hp, hl⟩ := h2
        exact hclosure _ ih p hp _ hl
    exact List.count_eq_one_of_mem (List.Nodup.of_map Source.name hnodup) hxorder

/-- C5 witness: the cyclic pair resolves to an order in which each of the
two mutually-importing sources appears exactly once. -/
theorem cycleTolerance_spec_witness :
    ((namesOf cyclicPair).Nodup ∧
      (∀ s ∈ cyclicPair, ∀ p ∈ sourceImports s,
        (lookupSrc cyclicPair p.1).isSome)) ∧
    ∃ order, resolveImports cyclicPair = .ok order ∧
      ∀ r ∈ cyclicPair, r.isLibrary = false → ∀ x, Reach cyclicPair r x →
        order.count x = 1 :=
  ⟨⟨by decide, by decide⟩, cycleTolerance_spec cyclicPair (by decide) (by decide)⟩

/-- C6: provided the parser attaches to each import directive a location
inside the source being parsed, import resolution fails exactly on a
missing import target: every error it raises is the `ParserError`
"Source not found." whose attached location is the location of an
unresolvable import directive, lying inside the importing source; and on
success every import of every emitted source resolves. -/
theorem missingImport_spec :
    ∀ m : List Source,
      (∀ s ∈ m, ∀ p ∈ sourceImports s, p.2.srcName = s.name) →
      (∀ e, resolveImports m = .error e →
        ∃ x ∈ m, ∃ p ∈ sourceImports x, lookupSrc m p.1 = none ∧
          e = .parserError "Source not found." p.2 ∧ p.2.srcName = x.name) ∧
      ((namesOf m).Nodup → ∀ order, resolveImports m = .ok order →
        ∀ x ∈ order, ∀ p ∈ sourceImports x, (lookupSrc m p.1).isSome) := by
  intro m hloc
  constructor
  · intro e he
    obtain ⟨x, hx, p, hp, hnone, heq⟩ := resolveImports_error_spec he
    exact ⟨x, hx, p, hp, hnone, heq, hloc x hx p hp⟩
  · intro hm order h
    exact (resolveImports_inv hm h).2.2.1

/-- C6 witness: the map holding only `"A"` with `import "Nope";` raises
the `ParserError` at the directive's location, inside `"A"`. -/
theorem missingImport_spec_witness :
    (∀ s ∈ [srcMissing], ∀ p ∈ sourceImports s, p.2.srcName = s.name) ∧
    ∃ x ∈ [srcMissing], ∃ p ∈ sourceImports x,
      lookupSrc [srcMissing] p.1 = none ∧
      CompilerException.parserError "Source not found."
          (⟨"A", 0, 14⟩ : SourceLocation)
        = .parserError "Source not found." p.2 ∧
      p.2.srcName = x.name := by
  refine ⟨by decide, ?_⟩
  exact (missingImport_spec [srcMissing] (by decide)).1
    (.parserError "Source not found." ⟨"A", 0, 14⟩) rfl

end Solidity
